import Mathlib

set_option maxRecDepth 40000

/-!
Shallow embedding of the `zexe-redjubjub` crate (RedDSA over a twisted
Edwards curve with cofactor 8), faithful to the Rust source in `src/`.

Modelling conventions:
* The base field and the scalar field of the external algebra library are
  `ZMod p` and `ZMod q`, with the moduli kept as parameters (the crate is
  generic over `E : TEModelParameters`).
* Byte strings are `List ℕ` whose entries are byte values; 256-bit
  `BigInteger256` values are their little-endian numeric value (a `ℕ`).
* External hash primitives (blake2s with 32-byte output, blake2b with
  64-byte output) are opaque collaborators of the crate and are passed as
  function parameters.
* A Rust `panic!`/`assert!`/`unwrap` is modelled by `Option`: `none` is a
  panic, `some` a normal return.  Functions which cannot panic are total.
-/

namespace ZexeRedJubjub

/-- Little-endian numeric value of a byte string (`BigInteger::read`). -/
def bytesToNatLE (bs : List ℕ) : ℕ :=
  bs.foldr (fun b acc => b + 256 * acc) 0

/-- Little-endian byte string of length `len` for a numeric value
(`BigInteger::write`, which always writes the fixed number of limbs). -/
def natToBytesLE : ℕ → ℕ → List ℕ
  | 0, _ => []
  | len + 1, n => (n % 256) :: natToBytesLE len (n / 256)

/-- Extended twisted Edwards coordinates, `GroupProjective` of the external
algebra library: the affine point is `(x/z, y/z)` with `t = x*y/z`. -/
structure Pt (p : ℕ) where
  x : ZMod p
  y : ZMod p
  t : ZMod p
  z : ZMod p
deriving DecidableEq

/-- The identity representative `(0, 1, 0, 1)` (`GroupProjective::zero`). -/
def zeroPt (p : ℕ) : Pt p := ⟨0, 1, 0, 1⟩

/-- Modelled from the spec: the external library's identity test
(`is_zero`), true exactly on representatives of the identity point
(`x/z = 0`, `y/z = 1`): the spec calls `(0,1,1,0)` "(or equivalent
representative) ... zero under the group law". -/
def is_zero {p : ℕ} (P : Pt p) : Bool :=
  decide (P.x = 0 ∧ P.y = P.z)

/-- Modelled from the spec: projective point equality of the external
library ("up to the canonical affine representative"). -/
def pt_eq {p : ℕ} (P Q : Pt p) : Bool :=
  if is_zero P then is_zero Q
  else if is_zero Q then false
  else decide (P.x * Q.z = Q.x * P.z ∧ P.y * Q.z = Q.y * P.z)

/-- `double` from `src/point.rs` (and its duplicate in
`src/group_hash.rs`): the extended-coordinates doubling of
Hisil–Wong–Carter–Dawson §3.3 specialised to `a = -1`
(`D = a*A = -A` in the source). -/
def double {p : ℕ} (P : Pt p) : Pt p :=
  let a := P.x * P.x
  let b := P.y * P.y
  let c := 2 * (P.z * P.z)
  let dneg := -a
  let e := (P.x + P.y) * (P.x + P.y) + dneg - b
  let g := dneg + b
  let f := g - c
  let h := dneg - b
  ⟨e * f, g * h, e * h, f * g⟩

/-- `mul_by_cofactor` from `src/point.rs`: three doublings (cofactor 8). -/
def mul_by_cofactor {p : ℕ} (P : Pt p) : Pt p :=
  double (double (double P))

/-- Modelled from the spec: field inversion of the external field
library, as the Fermat inverse `x ^ (p - 2)` (equal to `x⁻¹` on a prime
field; kept in this computable form so that concrete instances
evaluate). -/
def fieldInv {p : ℕ} (x : ZMod p) : ZMod p := x ^ (p - 2)

/-- Modelled from the spec: the external field library's
`inverse() -> Option<Self>` ("invert (optional result)"). -/
def inverseOpt {p : ℕ} (x : ZMod p) : Option (ZMod p) :=
  if x = 0 then none else some (fieldInv x)

/-- Modelled from the spec: the external field library's
`sqrt() -> Option<Self>` ("sqrt (optional result)").  Which of the two
square roots is returned is irrelevant to the crate (the sign is fixed up
afterwards); this model returns the least one. -/
def sqrtOpt {p : ℕ} (x : ZMod p) : Option (ZMod p) :=
  ((List.range p).map (fun i => (i : ZMod p))).find? (fun r => r * r = x)

/-- Modelled from the spec: the external field library's
`from_repr` conversion of a 256-bit representation into a field element;
representations that are not canonical are not produced by any encoder of
the crate. -/
def fromRepr (p : ℕ) (n : ℕ) : ZMod p :=
  if n < p then (n : ZMod p) else 0

/-- Canonical big-integer representation of a field element
(`into_repr` / `into` of the external field library). -/
def toRepr {p : ℕ} (x : ZMod p) : ℕ := x.val

/-- `get_for_y` from `src/point.rs` (duplicated in `src/group_hash.rs`):
recover `x` from `y` via `x^2 = (y^2 - 1) / (d*y^2 + 1)`, then pick the
root whose parity matches `sign`; builds `(x, y, x*y, 1)`. -/
def get_for_y {p : ℕ} (d : ZMod p) (y : ZMod p) (sign : Bool) :
    Option (Pt p) :=
  let tmp1 := y * y
  let tmp2 := tmp1 * d + 1
  let tmp1' := tmp1 - 1
  match inverseOpt tmp2 with
  | none => none
  | some i =>
    let xx := tmp1' * i
    match sqrtOpt xx with
    | none => none
    | some x0 =>
      let x := if decide (toRepr x0 % 2 = 1) ≠ sign then -x0 else x0
      some ⟨x, y, x * y, 1⟩

/-- `read_point` from `src/point.rs`: read 32 little-endian bytes, take
bit 255 as the sign of `x`, clear it, recover the point from `y`, then
multiply by the cofactor; reject the identity. -/
def read_point {p : ℕ} (d : ZMod p) (bs : List ℕ) : Option (Pt p) :=
  if bs.length < 32 then none
  else
    let n := bytesToNatLE (bs.take 32)
    let sign := n / 2 ^ 255 % 2 = 1
    let yRepr := n % 2 ^ 255
    let y := fromRepr p yRepr
    match get_for_y d y sign with
    | none => none
    | some P =>
      let P' := mul_by_cofactor P
      if is_zero P' then none else some P'

/-- Modelled from the spec: `into_affine` of the external library,
"convert to affine `(x, y)`" (the inverse of a zero `z` never arises for
points produced by the crate). -/
def into_affine {p : ℕ} (P : Pt p) : ZMod p × ZMod p :=
  (P.x * fieldInv P.z, P.y * fieldInv P.z)

/-- `write_point` from `src/point.rs`: write the affine `y` as 32
little-endian bytes, OR-ing bit 255 in when the affine `x` is odd
(`y_repr.as_mut()[3] |= 0x8000000000000000`). -/
def write_point {p : ℕ} (P : Pt p) : List ℕ :=
  let a := into_affine P
  let yRepr := toRepr a.2
  let n :=
    if toRepr a.1 % 2 = 1 then
      if yRepr / 2 ^ 255 % 2 = 0 then yRepr + 2 ^ 255 else yRepr
    else yRepr
  natToBytesLE 32 n

/-- Modelled from the spec: the external library's extended-coordinate
unified point addition ("standard extended-coordinate unified addition
formulas apply"), i.e. add-2008-hwcd with `a = -1` (`H = B - a*A`). -/
def add_pt {p : ℕ} (d : ZMod p) (P Q : Pt p) : Pt p :=
  let a := P.x * Q.x
  let b := P.y * Q.y
  let c := d * P.t * Q.t
  let dd := P.z * Q.z
  let e := (P.x + P.y) * (Q.x + Q.y) - a - b
  let f := dd - c
  let g := dd + c
  let h := b + a
  ⟨e * f, g * h, e * h, f * g⟩

/-- Modelled from the spec: negation,
`neg(X,Y,T,Z) = (-X, Y, -T, Z)`. -/
def neg_pt {p : ℕ} (P : Pt p) : Pt p := ⟨-P.x, P.y, -P.t, P.z⟩

/-- Modelled from the spec: the external library's scalar
multiplication, "standard double-and-add ... over the scalar's big-endian
bit sequence, most-significant bit first", over the 256-bit
representation, accumulating from the identity. -/
def mul_scalar {p : ℕ} (d : ZMod p) (P : Pt p) (k : ℕ) : Pt p :=
  ((List.range 256).reverse).foldl
    (fun acc n =>
      let acc2 := double acc
      if k / 2 ^ n % 2 = 1 then add_pt d acc2 P else acc2)
    (zeroPt p)

/-- Scalar multiplication by a scalar-field element (`.mul(&s)` converts
the scalar to its canonical 256-bit representation first). -/
def mul_sc {p q : ℕ} (d : ZMod p) (P : Pt p) (s : ZMod q) : Pt p :=
  mul_scalar d P s.val

/-- `group_hash` from `src/group_hash.rs`.  `blake2s pers msg` models the
external 32-byte-output hash keyed with the 8-byte `pers`; `ghFirst`
models `constants::GH_FIRST_BLOCK` (the fixed prefix; `src/constants.rs`
is not part of the sources).  The outer `Option` is the panic monad: the
function asserts that `personalization` has length 8 and that the digest
has length 32.  On the happy path it decodes the digest exactly like
`read_point` and rejects the identity. -/
def group_hash {p : ℕ} (blake2s : List ℕ → List ℕ → List ℕ)
    (ghFirst : List ℕ) (d : ZMod p) (tag personalization : List ℕ) :
    Option (Option (Pt p)) :=
  if personalization.length ≠ 8 then none
  else
    let h := blake2s personalization (ghFirst ++ tag)
    if h.length ≠ 32 then none
    else some (
      let n := bytesToNatLE h
      let sign := n / 2 ^ 255 % 2 = 1
      let yRepr := n % 2 ^ 255
      let y := fromRepr p yRepr
      match get_for_y d y sign with
      | none => none
      | some P =>
        let P' := mul_by_cofactor P
        if is_zero P' then none else some P')

/-- The loop body of `find_group_hash` from `src/group_hash.rs`, as a
fuel-indexed recursion on the counter `k` (the value of `tag[i]` at the
start of the iteration).  Faithful to the source's ordering: the digest is
computed first, then `assert!(tag[i] != u8::max_value())` fires (a panic,
`none`) when the counter is 255 — before the result of `group_hash` is
examined. -/
def find_from {p : ℕ} (blake2s : List ℕ → List ℕ → List ℕ)
    (ghFirst : List ℕ) (d : ZMod p) (m personalization : List ℕ) :
    ℕ → ℕ → Option (Pt p)
  | 0, _ => none
  | fuel + 1, k =>
    match group_hash blake2s ghFirst d (m ++ [k]) personalization with
    | none => none
    | some gh =>
      if k = 255 then none
      else
        match gh with
        | some g => some g
        | none => find_from blake2s ghFirst d m personalization fuel (k + 1)

/-- `find_group_hash` from `src/group_hash.rs`: rejection sampling over
the one-byte counter appended to `m`.  `none` is a panic. -/
def find_group_hash {p : ℕ} (blake2s : List ℕ → List ℕ → List ℕ)
    (ghFirst : List ℕ) (d : ZMod p) (m personalization : List ℕ) :
    Option (Pt p) :=
  find_from blake2s ghFirst d m personalization 256 0

/-- `hash_to_scalar` from `src/util.rs`.  `blake2b persona a b` models the
external 64-byte-output hash keyed with `persona`, updated with `a` then
`b`.  The digest is split into eight little-endian 64-bit words
(`u64::from_le_bytes` of consecutive 8-byte chunks) and reduced by the
`BitIterator` double-and-add, most significant bit (bit 511) first. -/
def hash_to_scalar (q : ℕ)
    (blake2b : List ℕ → List ℕ → List ℕ → List ℕ)
    (persona a b : List ℕ) : ZMod q :=
  let res := blake2b persona a b
  let repr := (List.range 8).map (fun i => bytesToNatLE ((res.drop (8 * i)).take 8))
  ((List.range 512).reverse).foldl
    (fun acc n =>
      let acc2 := acc + acc
      if repr.getD (n / 64) 0 / 2 ^ (n % 64) % 2 = 1 then acc2 + 1 else acc2)
    0

/-- The 16-byte persona `b"Zcash_RedJubjubH"` from `src/util.rs`. -/
def redJubjubPersona : List ℕ :=
  [90, 99, 97, 115, 104, 95, 82, 101, 100, 74, 117, 98, 106, 117, 98, 72]

/-- `h_star` from `src/util.rs`. -/
def h_star (q : ℕ) (blake2b : List ℕ → List ℕ → List ℕ → List ℕ)
    (a b : List ℕ) : ZMod q :=
  hash_to_scalar q blake2b redJubjubPersona a b

/-- Modelled from the spec: the canonical little-endian 32-byte encoding
of a scalar (`s.write(&mut sbar)`, "`sbar` = little-endian encoding of
`s`"). -/
def write_scalar {q : ℕ} (s : ZMod q) : List ℕ :=
  natToBytesLE 32 s.val

/-- Modelled from the spec: `E::ScalarField::read` used by `verify`
("if the bytes do not represent a canonical scalar-field element,
reject"; the source comments `S < order(G)`). -/
def read_scalar (q : ℕ) (bs : List ℕ) : Option (ZMod q) :=
  if bs.length < 32 then none
  else
    let n := bytesToNatLE (bs.take 32)
    if n < q then some (n : ZMod q) else none

/-- The `Signature` struct from `src/lib.rs`: two 32-byte fields. -/
structure SignatureM where
  rbar : List ℕ
  sbar : List ℕ
deriving DecidableEq

/-- `PrivateKey::sign` from `src/lib.rs`.  `rng` is the external
randomness stream; the source fills an 80-byte buffer from it
(`T = (l_H + 128) bits`), so the embedding takes the first 80 bytes.
The generator argument is the already-derived fixed-generator point
(`generator.point::<E>()` in the source, a pure function of the
variant). -/
def sign {p q : ℕ} (d : ZMod p)
    (blake2b : List ℕ → List ℕ → List ℕ → List ℕ)
    (generator : Pt p) (sk : ZMod q) (msg : List ℕ) (rng : ℕ → ℕ) :
    SignatureM :=
  let t := (List.range 80).map rng
  let r := h_star q blake2b t msg
  let r_g := mul_sc d generator r
  let rbar := write_point r_g
  let s := h_star q blake2b rbar msg * sk + r
  { rbar := rbar, sbar := write_scalar s }

/-- `PublicKey::from_private` from `src/lib.rs`. -/
def from_private {p q : ℕ} (d : ZMod p) (generator : Pt p) (sk : ZMod q) :
    Pt p :=
  mul_sc d generator sk

/-- `PublicKey::verify` from `src/lib.rs`: recompute the challenge,
decode `rbar` (rejecting on failure), decode `sbar` as a canonical scalar
(rejecting on failure), then test
`mul_by_cofactor(vk*c + R + (-(P_G * s)))` against zero.  The function
contains no panicking operation, so it is a total `Bool`. -/
def verify {p : ℕ} (q : ℕ) (d : ZMod p)
    (blake2b : List ℕ → List ℕ → List ℕ → List ℕ)
    (generator : Pt p) (vk : Pt p) (msg : List ℕ) (sig : SignatureM) :
    Bool :=
  let c := h_star q blake2b sig.rbar msg
  match read_point d sig.rbar with
  | none => false
  | some r =>
    match read_scalar q sig.sbar with
    | none => false
    | some s =>
      let pp := add_pt d (add_pt d (mul_sc d vk c) r) (neg_pt (mul_sc d generator s))
      is_zero (mul_by_cofactor pp)

/-- `impl FromBytes for PublicKey` from `src/lib.rs`: the source calls
`read_point(read).unwrap()` (a `// TODO: handle error` is attached), so a
failed decode is a panic — modelled by `none`; the function never returns
an `io::Result::Err`. -/
def public_key_read {p : ℕ} (d : ZMod p) (bs : List ℕ) : Option (Pt p) :=
  match read_point d bs with
  | some pt => some pt
  | none => none

/-- The projective form of the twisted Edwards curve equation
`-x^2 + y^2 = 1 + d*x^2*y^2` (`a = -1`, the curve family of the crate),
for `(x, y) = (X/Z, Y/Z)`. -/
def on_curve {p : ℕ} (d : ZMod p) (P : Pt p) : Prop :=
  (-P.x ^ 2 + P.y ^ 2) * P.z ^ 2 = P.z ^ 4 + d * P.x ^ 2 * P.y ^ 2

/-! ### Segment evaluation of the 256-bit double-and-add

`mul_scalar` iterates 256 times; splitting the fold into four 64-bit
segments lets concrete instances be evaluated by `decide` without
exceeding the evaluator's recursion limits. -/

/-- One segment of the `mul_scalar` fold. -/
def mulSeg {p : ℕ} (d : ZMod p) (P : Pt p) (k : ℕ) (acc : Pt p)
    (seg : List ℕ) : Pt p :=
  seg.foldl
    (fun a n =>
      let a2 := double a
      if k / 2 ^ n % 2 = 1 then add_pt d a2 P else a2)
    acc

theorem mul_scalar_eq_segs {p : ℕ} (d : ZMod p) (P : Pt p) (k : ℕ) :
    mul_scalar d P k =
      mulSeg d P k (mulSeg d P k (mulSeg d P k (mulSeg d P k (zeroPt p)
        ((List.range' 192 64).reverse)) ((List.range' 128 64).reverse))
        ((List.range' 64 64).reverse)) ((List.range 64).reverse) := by
  have h : (List.range 256).reverse
      = (List.range' 192 64).reverse ++ ((List.range' 128 64).reverse
        ++ ((List.range' 64 64).reverse ++ (List.range 64).reverse)) := by
    decide
  simp only [mul_scalar, mulSeg, h, List.foldl_append]

/-! ### A concrete instance of the collaborator interface

The crate is generic over `E : TEModelParameters`; the following is a
small but fully honest instance used for explicit inputs: the twisted
Edwards curve `-x^2 + y^2 = 1 + 7*x^2*y^2` over `F_17`.  It has
`24 = 8 * 3` points, so, like Jubjub, cofactor 8 and a prime-order
subgroup (of order `3`); `7` is a nonsquare and `-1` a square mod 17, so
the unified addition formulas are complete on it.  The hash collaborators
are instantiated with concrete functions of the right output length. -/

/-- The curve coefficient `d = 7` over the base field `F_17`. -/
def d17 : ZMod 17 := 7

/-- A generator of the prime-order (order-3) subgroup of the instance
curve: the affine point `(7, 3)`, in extended coordinates. -/
def G17 : Pt 17 := ⟨16, 2, 14, 12⟩

/-- A model blake2b instance: constant 64-byte digest of value 1. -/
def blake2bConst : List ℕ → List ℕ → List ℕ → List ℕ :=
  fun _ _ _ => 1 :: List.replicate 63 0

theorem h_star_blake2bConst (a b : List ℕ) :
    h_star 3 blake2bConst a b = 1 := by
  have h0 : h_star 3 blake2bConst [] [] = 1 := by decide
  have he : h_star 3 blake2bConst a b = h_star 3 blake2bConst [] [] := rfl
  rw [he, h0]

theorem seg192_G17_1 :
    mulSeg d17 G17 1 (zeroPt 17) ((List.range' 192 64).reverse)
      = ⟨0, 16, 0, 16⟩ := by decide

theorem seg128_G17_1 :
    mulSeg d17 G17 1 (⟨0, 16, 0, 16⟩ : Pt 17) ((List.range' 128 64).reverse)
      = ⟨0, 16, 0, 16⟩ := by decide

theorem seg64_G17_1 :
    mulSeg d17 G17 1 (⟨0, 16, 0, 16⟩ : Pt 17) ((List.range' 64 64).reverse)
      = ⟨0, 16, 0, 16⟩ := by decide

theorem seg0_G17_1 :
    mulSeg d17 G17 1 (⟨0, 16, 0, 16⟩ : Pt 17) ((List.range 64).reverse)
      = ⟨5, 7, 15, 8⟩ := by decide

theorem mul_scalar_G17_1 : mul_scalar d17 G17 1 = ⟨5, 7, 15, 8⟩ := by
  rw [mul_scalar_eq_segs, seg192_G17_1, seg128_G17_1, seg64_G17_1,
    seg0_G17_1]

theorem mul_sc_G17_1 : mul_sc d17 G17 (1 : ZMod 3) = ⟨5, 7, 15, 8⟩ := by
  rw [mul_sc, show (1 : ZMod 3).val = 1 from rfl, mul_scalar_G17_1]

theorem seg192_G17_2 :
    mulSeg d17 G17 2 (zeroPt 17) ((List.range' 192 64).reverse)
      = ⟨0, 16, 0, 16⟩ := by decide

theorem seg128_G17_2 :
    mulSeg d17 G17 2 (⟨0, 16, 0, 16⟩ : Pt 17) ((List.range' 128 64).reverse)
      = ⟨0, 16, 0, 16⟩ := by decide

theorem seg64_G17_2 :
    mulSeg d17 G17 2 (⟨0, 16, 0, 16⟩ : Pt 17) ((List.range' 64 64).reverse)
      = ⟨0, 16, 0, 16⟩ := by decide

theorem seg0_G17_2 :
    mulSeg d17 G17 2 (⟨0, 16, 0, 16⟩ : Pt 17) ((List.range 64).reverse)
      = ⟨13, 9, 5, 3⟩ := by decide

theorem mul_scalar_G17_2 : mul_scalar d17 G17 2 = ⟨13, 9, 5, 3⟩ := by
  rw [mul_scalar_eq_segs, seg192_G17_2, seg128_G17_2, seg64_G17_2,
    seg0_G17_2]

theorem mul_sc_G17_2 : mul_sc d17 G17 (2 : ZMod 3) = ⟨13, 9, 5, 3⟩ := by
  rw [mul_sc, show (2 : ZMod 3).val = 2 from rfl, mul_scalar_G17_2]

theorem seg192_G17_3 :
    mulSeg d17 G17 3 (zeroPt 17) ((List.range' 192 64).reverse)
      = ⟨0, 16, 0, 16⟩ := by decide

theorem seg128_G17_3 :
    mulSeg d17 G17 3 (⟨0, 16, 0, 16⟩ : Pt 17) ((List.range' 128 64).reverse)
      = ⟨0, 16, 0, 16⟩ := by decide

theorem seg64_G17_3 :
    mulSeg d17 G17 3 (⟨0, 16, 0, 16⟩ : Pt 17) ((List.range' 64 64).reverse)
      = ⟨0, 16, 0, 16⟩ := by decide

theorem seg0_G17_3 :
    mulSeg d17 G17 3 (⟨0, 16, 0, 16⟩ : Pt 17) ((List.range 64).reverse)
      = ⟨0, 12, 0, 12⟩ := by decide

theorem mul_scalar_G17_3 : mul_scalar d17 G17 3 = ⟨0, 12, 0, 12⟩ := by
  rw [mul_scalar_eq_segs, seg192_G17_3, seg128_G17_3, seg64_G17_3,
    seg0_G17_3]

theorem seg192_PK_1 :
    mulSeg d17 (⟨5, 7, 15, 8⟩ : Pt 17) 1 (zeroPt 17)
      ((List.range' 192 64).reverse) = ⟨0, 16, 0, 16⟩ := by decide

theorem seg128_PK_1 :
    mulSeg d17 (⟨5, 7, 15, 8⟩ : Pt 17) 1 (⟨0, 16, 0, 16⟩ : Pt 17)
      ((List.range' 128 64).reverse) = ⟨0, 16, 0, 16⟩ := by decide

theorem seg64_PK_1 :
    mulSeg d17 (⟨5, 7, 15, 8⟩ : Pt 17) 1 (⟨0, 16, 0, 16⟩ : Pt 17)
      ((List.range' 64 64).reverse) = ⟨0, 16, 0, 16⟩ := by decide

theorem seg0_PK_1 :
    mulSeg d17 (⟨5, 7, 15, 8⟩ : Pt 17) 1 (⟨0, 16, 0, 16⟩ : Pt 17)
      ((List.range 64).reverse) = ⟨6, 5, 1, 13⟩ := by decide

theorem mul_sc_PK_1 :
    mul_sc d17 (⟨5, 7, 15, 8⟩ : Pt 17) (1 : ZMod 3) = ⟨6, 5, 1, 13⟩ := by
  rw [mul_sc, show (1 : ZMod 3).val = 1 from rfl, mul_scalar_eq_segs,
    seg192_PK_1, seg128_PK_1, seg64_PK_1, seg0_PK_1]

/-! ### Claims C1 to C5 -/

/-- Claim C1 (refuted; the code contradicts the crate's own
`sign_and_verify` test): the sign/verify round trip FAILS.  On the
concrete instance, with honest randomness (the nonce point `r.P_G` is not
the identity, second conjunct), verifying a freshly produced signature
under the matching public key returns `false`.  The cause: `read_point`
multiplies the decoded `R` by the cofactor, so `verify` checks
`8*(c*sk*G + 8R - (c*sk + r)*G) = 56R ≠ 0` instead of
`8*(R - R) = 0`. -/
theorem c1_sign_verify_roundtrip_fails :
    verify 3 d17 blake2bConst G17 (from_private d17 G17 (1 : ZMod 3)) []
        (sign d17 blake2bConst G17 (1 : ZMod 3) [] (fun _ => 0)) = false
      ∧ is_zero (mul_sc d17 G17 (h_star 3 blake2bConst
          ((List.range 80).map (fun _ => 0)) [])) = false := by
  constructor
  · have hpk : from_private d17 G17 (1 : ZMod 3) = ⟨5, 7, 15, 8⟩ := by
      rw [from_private, mul_sc_G17_1]
    have hsig : sign d17 blake2bConst G17 (1 : ZMod 3) [] (fun _ => 0)
        = { rbar := natToBytesLE 32 (2 ^ 255 + 3),
            sbar := natToBytesLE 32 2 } := by
      simp only [sign, h_star_blake2bConst, mul_sc_G17_1]
      decide
    rw [hpk, hsig]
    have h1 : read_point d17 (natToBytesLE 32 (2 ^ 255 + 3))
        = some ⟨1, 2, 3, 12⟩ := by decide
    have h2 : read_scalar 3 (natToBytesLE 32 2) = some (2 : ZMod 3) := by
      decide
    simp only [verify, h_star_blake2bConst, h1, h2, mul_sc_PK_1,
      mul_sc_G17_2]
    decide
  · rw [h_star_blake2bConst, mul_sc_G17_1]
    decide

/-- Claim C2 (refuted; same root cause as C1): the point codec does NOT
round-trip on the prime-order subgroup.  `G17` is on the curve, is not
the identity, and lies in the prime-order subgroup (`3 * G17` is zero),
yet `read_point (write_point G17)` returns the cofactor-multiplied point
`⟨1,2,3,12⟩` (a representative of `8*G17 = 2*G17`), which is not equal to
`G17` even up to the affine representative. -/
theorem c2_decode_encode_adds_cofactor :
    on_curve d17 G17
      ∧ is_zero G17 = false
      ∧ is_zero (mul_scalar d17 G17 3) = true
      ∧ read_point d17 (write_point G17) = some ⟨1, 2, 3, 12⟩
      ∧ pt_eq (⟨1, 2, 3, 12⟩ : Pt 17) G17 = false := by
  refine ⟨by unfold on_curve; decide, by decide, ?_, by decide, by decide⟩
  rw [mul_scalar_G17_3]
  decide

/-- Claim C3 (confirmed): whenever `rbar` decodes to a point `r` and
`sbar` decodes to a canonical scalar `s`, `verify` returns exactly the
zero test of `mul_by_cofactor(vk*c + r + neg(generator*s))` with
`c = h_star(rbar, msg)`. -/
theorem c3_verify_equation {p : ℕ} (q : ℕ) (d : ZMod p)
    (blake2b : List ℕ → List ℕ → List ℕ → List ℕ)
    (generator vk : Pt p) (msg : List ℕ) (sig : SignatureM)
    (r : Pt p) (s : ZMod q)
    (hr : read_point d sig.rbar = some r)
    (hs : read_scalar q sig.sbar = some s) :
    verify q d blake2b generator vk msg sig
      = is_zero (mul_by_cofactor (add_pt d (add_pt d
          (mul_sc d vk (h_star q blake2b sig.rbar msg)) r)
          (neg_pt (mul_sc d generator s)))) := by
  simp only [verify, hr, hs]

/-- Witness for C3 at a concrete decodable signature. -/
theorem c3_verify_equation_witness :
    read_point d17 (natToBytesLE 32 (2 ^ 255 + 3)) = some ⟨1, 2, 3, 12⟩
      ∧ verify 3 d17 blake2bConst G17 G17 []
          ⟨natToBytesLE 32 (2 ^ 255 + 3), natToBytesLE 32 1⟩
        = is_zero (mul_by_cofactor (add_pt d17 (add_pt d17
            (mul_sc d17 G17 (h_star 3 blake2bConst
              (natToBytesLE 32 (2 ^ 255 + 3)) [])) ⟨1, 2, 3, 12⟩)
            (neg_pt (mul_sc d17 G17 (1 : ZMod 3))))) :=
  ⟨by decide,
    c3_verify_equation 3 d17 blake2bConst G17 G17 []
      ⟨natToBytesLE 32 (2 ^ 255 + 3), natToBytesLE 32 1⟩
      ⟨1, 2, 3, 12⟩ (1 : ZMod 3) (by decide) (by decide)⟩

/-- Claim C4 (confirmed): if decoding `rbar` as a point fails, or the
`sbar` bytes are not a canonical scalar, `verify` returns `false` — a
boolean reject.  (`verify` is a total `Bool`-valued function of its
inputs: every fallible sub-operation is pattern-matched, never
unwrapped, so no input can panic.) -/
theorem c4_verify_rejects_invalid {p : ℕ} (q : ℕ) (d : ZMod p)
    (blake2b : List ℕ → List ℕ → List ℕ → List ℕ)
    (generator vk : Pt p) (msg : List ℕ) (sig : SignatureM)
    (h : read_point d sig.rbar = none ∨ read_scalar q sig.sbar = none) :
    verify q d blake2b generator vk msg sig = false := by
  rcases h with h | h
  · simp only [verify, h]
  · cases hr : read_point (p := p) d sig.rbar with
    | none => simp only [verify, hr]
    | some r => simp only [verify, hr, h]

/-- Witness for C4: a 32-byte `rbar` encoding a torsion point (the
encoding of the identity's `y = 1`) fails to decode and is rejected. -/
theorem c4_verify_rejects_invalid_witness :
    read_point d17 (natToBytesLE 32 1) = none
      ∧ verify 3 d17 blake2bConst G17 G17 []
          ⟨natToBytesLE 32 1, natToBytesLE 32 1⟩ = false :=
  ⟨by decide,
    c4_verify_rejects_invalid 3 d17 blake2bConst G17 G17 []
      ⟨natToBytesLE 32 1, natToBytesLE 32 1⟩ (Or.inl (by decide))⟩

/-- Claim C5 (refuted; the source carries a `// TODO: handle error` next
to the offending `.unwrap()`): `PublicKey`'s `FromBytes::read` PANICS on
bytes that do not decode to a valid point, instead of surfacing an error
value.  `none` models the panic of `read_point(read).unwrap()`; the input
is the 32-byte little-endian encoding of `y = 1`, whose decode yields a
torsion point collapsing to the identity and hence `None`. -/
theorem c5_public_key_read_panics :
    public_key_read d17 (natToBytesLE 32 1) = none := by decide

/-! ### Claim C6: `find_group_hash` -/

/-- An 8-byte personalization for the concrete instance. -/
def pers8 : List ℕ := [0, 0, 0, 0, 0, 0, 0, 0]

/-- A 32-byte digest whose decode fails on the instance curve
(`y = 4` has no matching `x`). -/
def digestBad : List ℕ := natToBytesLE 32 4

/-- A 32-byte digest decoding to a non-torsion point on the instance
curve (`y = 3`). -/
def digestGood : List ℕ := natToBytesLE 32 3

/-- A model blake2s instance under which `group_hash` fails for every
counter except 255 (the message fed to blake2s is `ghFirst ++ tag`; with
`ghFirst = []` and seed `[]` the message is just the counter byte). -/
def blake2sCx : List ℕ → List ℕ → List ℕ :=
  fun _ msg => if msg = [255] then digestGood else digestBad

/-- A model blake2s instance under which `group_hash` succeeds at once. -/
def blake2sGood : List ℕ → List ℕ → List ℕ :=
  fun _ _ => digestGood

/-- `group_hash` cannot panic when the personalization has length 8 and
the digest has length 32 (its two assertions). -/
theorem group_hash_total {p : ℕ} (blake2s : List ℕ → List ℕ → List ℕ)
    (ghFirst : List ℕ) (d : ZMod p) (tag personalization : List ℕ)
    (hpers : personalization.length = 8)
    (hdig : (blake2s personalization (ghFirst ++ tag)).length = 32) :
    ∃ o, group_hash blake2s ghFirst d tag personalization = some o := by
  unfold group_hash
  rw [if_neg (by simp [hpers]), if_neg (by simp [hdig])]
  exact ⟨_, rfl⟩

/-- Peeling the `find_from` loop past an unbroken run of failures:
if `group_hash` fails (returns `some none`) for all counters below `k`,
the loop state after those iterations is the loop started at `k`. -/
theorem find_from_chain {p : ℕ} (blake2s : List ℕ → List ℕ → List ℕ)
    (ghFirst : List ℕ) (d : ZMod p) (m pers : List ℕ) :
    ∀ k : ℕ, k ≤ 255 →
      (∀ j, j < k → group_hash blake2s ghFirst d (m ++ [j]) pers = some none) →
      find_from blake2s ghFirst d m pers 256 0
        = find_from blake2s ghFirst d m pers (256 - k) k := by
  intro k
  induction k with
  | zero => intro _ _; rfl
  | succ k ih =>
    intro hk hall
    have e1 := ih (by omega) (fun j hj => hall j (by omega))
    rw [e1]
    have e2 : 256 - k = (256 - (k + 1)) + 1 := by omega
    rw [e2]
    conv_lhs => rw [find_from]
    rw [hall k (Nat.lt_succ_self k)]
    show (if k = 255 then none
      else find_from blake2s ghFirst d m pers (256 - (k + 1)) (k + 1))
        = find_from blake2s ghFirst d m pers (256 - (k + 1)) (k + 1)
    rw [if_neg (by omega)]

/-- Claim C6 (corrected): `find_group_hash` performs the rejection
sampling of the claim only for counters 0..=254: (1) if `group_hash`
fails for all counters below `k ≤ 254` and succeeds at `k`, the point is
returned; (2) but if `group_hash` fails at all counters 0..=254, the
function PANICS (the `assert!(tag[i] != u8::max_value())` fires) without
examining the result at counter 255. -/
theorem c6_find_group_hash_amended {p : ℕ}
    (blake2s : List ℕ → List ℕ → List ℕ) (ghFirst : List ℕ) (d : ZMod p)
    (m pers : List ℕ) (hpers : pers.length = 8)
    (hdig : ∀ t, (blake2s pers t).length = 32) :
    (∀ (k : ℕ) (P : Pt p), k ≤ 254 →
      (∀ j, j < k → group_hash blake2s ghFirst d (m ++ [j]) pers = some none) →
      group_hash blake2s ghFirst d (m ++ [k]) pers = some (some P) →
      find_group_hash blake2s ghFirst d m pers = some P)
    ∧ ((∀ k, k ≤ 254 → group_hash blake2s ghFirst d (m ++ [k]) pers = some none) →
      find_group_hash blake2s ghFirst d m pers = none) := by
  constructor
  · intro k P hk hfail hsucc
    rw [find_group_hash, find_from_chain blake2s ghFirst d m pers k (by omega) hfail]
    have e2 : 256 - k = (256 - (k + 1)) + 1 := by omega
    rw [e2]
    conv_lhs => rw [find_from]
    rw [hsucc]
    show (if k = 255 then none else some P) = some P
    rw [if_neg (by omega)]
  · intro hfail
    rw [find_group_hash,
      find_from_chain blake2s ghFirst d m pers 255 (by omega)
        (fun j hj => hfail j (by omega))]
    obtain ⟨o, ho⟩ := group_hash_total blake2s ghFirst d (m ++ [255]) pers
      hpers (hdig _)
    conv_lhs => rw [show (256 - 255 : ℕ) = 0 + 1 from rfl, find_from]
    rw [ho]
    show (if 255 = 255 then none
      else match o with
        | some g => some g
        | none => find_from blake2s ghFirst d m pers 0 (255 + 1)) = none
    rw [if_pos rfl]

/-- Witness for the amended C6: under `blake2sGood` the very first
counter succeeds and its point is returned. -/
theorem c6_find_group_hash_amended_witness :
    find_group_hash blake2sGood [] d17 [] pers8 = some ⟨16, 2, 14, 12⟩ :=
  (c6_find_group_hash_amended blake2sGood [] d17 [] pers8 (by decide)
      (fun _ => rfl)).1 0 ⟨16, 2, 14, 12⟩ (by omega)
    (fun j hj => absurd hj (by omega)) (by decide)

/-- Counterexample to C6 as stated: under `blake2sCx`, `group_hash`
succeeds at counter 255 (second conjunct), yet `find_group_hash` panics
(`none`) instead of returning that point — the counter assertion fires
before the result of the 256th attempt is examined. -/
theorem c6_find_group_hash_counterexample :
    find_group_hash blake2sCx [] d17 [] pers8 = none
      ∧ group_hash blake2sCx [] d17 ([] ++ [255]) pers8
          = some (some ⟨16, 2, 14, 12⟩) :=
  ⟨by decide, by decide⟩

/-! ### Claim C7: `hash_to_scalar` -/

theorem sum_range_split (f : ℕ → ℕ) (a b : ℕ) :
    ∑ i in Finset.range (a + b), f i
      = (∑ i in Finset.range a, f i) + ∑ i in Finset.range b, f (a + i) := by
  rw [Finset.range_eq_Ico,
    ← Finset.sum_Ico_consecutive _ (Nat.zero_le a) (Nat.le_add_right a b)]
  rw [← Finset.range_eq_Ico, Finset.sum_Ico_eq_sum_range]
  simp

/-- The most-significant-bit-first double-and-add fold accumulates the
positional value of the bits it has consumed. -/
theorem foldl_msb_bits (q : ℕ) (bf : ℕ → ℕ) :
    ∀ (W : ℕ) (c : ZMod q),
      ((List.range W).reverse).foldl
        (fun acc n => if bf n = 1 then acc + acc + 1 else acc + acc) c
      = c * 2 ^ W
        + ((∑ n in Finset.range W, (if bf n = 1 then 1 else 0) * 2 ^ n : ℕ) :
            ZMod q) := by
  intro W
  induction W with
  | zero => intro c; simp
  | succ W ih =>
    intro c
    rw [List.range_succ, List.reverse_append]
    simp only [List.reverse_singleton, List.singleton_append, List.foldl_cons]
    rw [ih, Finset.sum_range_succ]
    by_cases h : bf W = 1
    · rw [if_pos h, if_pos h]
      push_cast
      ring
    · rw [if_neg h, if_neg h]
      push_cast
      ring

/-- The binary digits of `n` below position `W` sum to `n % 2^W`. -/
theorem bits_sum_mod (n : ℕ) :
    ∀ W : ℕ, (∑ j in Finset.range W,
        (if n / 2 ^ j % 2 = 1 then 1 else 0) * 2 ^ j) = n % 2 ^ W := by
  intro W
  induction W with
  | zero => simp [Nat.mod_one]
  | succ W ih =>
    rw [Finset.sum_range_succ, ih, pow_succ, Nat.mod_mul]
    rcases Nat.mod_two_eq_zero_or_one (n / 2 ^ W) with h | h
    · rw [h]; simp
    · rw [h]; simp

/-- Summing the bit values of a word list, 64 bits per word, gives the
little-endian positional value of the words. -/
theorem word_bits_val :
    ∀ (ws : List ℕ), (∀ w ∈ ws, w < 2 ^ 64) →
      (∑ n in Finset.range (64 * ws.length),
        (if ws.getD (n / 64) 0 / 2 ^ (n % 64) % 2 = 1 then 1 else 0) * 2 ^ n)
      = ∑ i in Finset.range ws.length, 2 ^ (64 * i) * ws.getD i 0 := by
  intro ws
  induction ws with
  | nil => intro _; simp
  | cons w tl ih =>
    intro hb
    have hw : w < 2 ^ 64 := hb w (List.mem_cons_self w tl)
    have htl : ∀ x ∈ tl, x < 2 ^ 64 := fun x hx => hb x (List.mem_cons_of_mem w hx)
    simp only [List.length_cons]
    have h1 : 64 * (tl.length + 1) = 64 + 64 * tl.length := by ring
    rw [h1, sum_range_split]
    have hfirst : (∑ n in Finset.range 64,
        (if (w :: tl).getD (n / 64) 0 / 2 ^ (n % 64) % 2 = 1 then 1 else 0) * 2 ^ n)
          = w := by
      have hc : ∀ n ∈ Finset.range 64,
          (if (w :: tl).getD (n / 64) 0 / 2 ^ (n % 64) % 2 = 1 then 1 else 0) * 2 ^ n
            = (if w / 2 ^ n % 2 = 1 then 1 else 0) * 2 ^ n := by
        intro n hn
        have hn64 : n < 64 := Finset.mem_range.mp hn
        rw [Nat.div_eq_of_lt hn64, Nat.mod_eq_of_lt hn64]
        rfl
      rw [Finset.sum_congr rfl hc, bits_sum_mod, Nat.mod_eq_of_lt hw]
    rw [hfirst]
    have hsecond : (∑ n in Finset.range (64 * tl.length),
        (if (w :: tl).getD ((64 + n) / 64) 0 / 2 ^ ((64 + n) % 64) % 2 = 1 then 1 else 0)
          * 2 ^ (64 + n))
        = 2 ^ 64 * ∑ n in Finset.range (64 * tl.length),
            (if tl.getD (n / 64) 0 / 2 ^ (n % 64) % 2 = 1 then 1 else 0) * 2 ^ n := by
      rw [Finset.mul_sum]
      refine Finset.sum_congr rfl ?_
      intro n _
      have e1 : (64 + n) / 64 = n / 64 + 1 := by omega
      have e2 : (64 + n) % 64 = n % 64 := by omega
      rw [e1, e2, pow_add]
      have e3 : (w :: tl).getD (n / 64 + 1) 0 = tl.getD (n / 64) 0 := rfl
      rw [e3]
      ring
    rw [hsecond, ih htl, Finset.sum_range_succ']
    have hc2 : ∀ i ∈ Finset.range tl.length,
        2 ^ (64 * (i + 1)) * (w :: tl).getD (i + 1) 0
          = 2 ^ 64 * (2 ^ (64 * i) * tl.getD i 0) := by
      intro i _
      have e4 : (w :: tl).getD (i + 1) 0 = tl.getD i 0 := rfl
      rw [e4]
      ring
    rw [Finset.sum_congr rfl hc2, ← Finset.mul_sum]
    have e5 : (w :: tl).getD 0 0 = w := rfl
    rw [e5]
    ring

theorem bytesToNatLE_cons (a : ℕ) (l : List ℕ) :
    bytesToNatLE (a :: l) = a + 256 * bytesToNatLE l := rfl

theorem bytesToNatLE_append (l1 l2 : List ℕ) :
    bytesToNatLE (l1 ++ l2)
      = bytesToNatLE l1 + 256 ^ l1.length * bytesToNatLE l2 := by
  induction l1 with
  | nil => simp [bytesToNatLE]
  | cons a tl ih =>
    simp only [List.cons_append, bytesToNatLE_cons, ih, List.length_cons]
    ring

theorem bytesToNatLE_lt (bs : List ℕ) (h : ∀ b ∈ bs, b < 256) :
    bytesToNatLE bs < 256 ^ bs.length := by
  induction bs with
  | nil => simp [bytesToNatLE]
  | cons a tl ih =>
    have ha : a < 256 := h a (List.mem_cons_self a tl)
    have htl : bytesToNatLE tl < 256 ^ tl.length :=
      ih (fun b hb => h b (List.mem_cons_of_mem a hb))
    rw [bytesToNatLE_cons, List.length_cons, pow_succ]
    have h2 : 256 * (bytesToNatLE tl + 1) ≤ 256 * 256 ^ tl.length :=
      Nat.mul_le_mul_left _ htl
    omega

/-- The eight 8-byte little-endian chunks of a 64-byte string, weighted
by `2^(64*i)`, reassemble its little-endian value. -/
theorem blocks_val :
    ∀ (k : ℕ) (bs : List ℕ), bs.length = 8 * k →
      (∑ i in Finset.range k, 2 ^ (64 * i) * bytesToNatLE ((bs.drop (8 * i)).take 8))
        = bytesToNatLE bs := by
  intro k
  induction k with
  | zero =>
    intro bs h
    have he : bs = [] := List.eq_nil_of_length_eq_zero (by omega)
    simp [he, bytesToNatLE]
  | succ k ih =>
    intro bs h
    rw [Finset.sum_range_succ']
    have hcong : ∀ i ∈ Finset.range k,
        2 ^ (64 * (i + 1)) * bytesToNatLE ((bs.drop (8 * (i + 1))).take 8)
          = 2 ^ 64 * (2 ^ (64 * i) * bytesToNatLE (((bs.drop 8).drop (8 * i)).take 8)) := by
      intro i _
      have hd : bs.drop (8 * (i + 1)) = (bs.drop 8).drop (8 * i) := by
        rw [List.drop_drop]
        congr 1
        ring
      rw [hd]
      ring
    rw [Finset.sum_congr rfl hcong, ← Finset.mul_sum,
      ih (bs.drop 8) (by simp [List.length_drop, h]; omega)]
    conv_rhs => rw [← List.take_append_drop 8 bs]
    rw [bytesToNatLE_append]
    have hlen : (bs.take 8).length = 8 := by
      simp [List.length_take]
      omega
    rw [hlen]
    norm_num
    ring

/-- Claim C7 (confirmed): `hash_to_scalar` equals the little-endian value
of the eight 64-bit words of the digest (the raw 512-bit integer, first
conjunct), i.e. the raw digest value reduced into `ZMod q`; and that
512-bit integer is exactly the little-endian value of the 64 digest bytes
(second conjunct). -/
theorem c7_hash_to_scalar_reduces (q : ℕ)
    (blake2b : List ℕ → List ℕ → List ℕ → List ℕ) (persona a b : List ℕ)
    (hlen : (blake2b persona a b).length = 64)
    (hbytes : ∀ x ∈ blake2b persona a b, x < 256) :
    hash_to_scalar q blake2b persona a b
        = ((∑ i in Finset.range 8, 2 ^ (64 * i)
            * bytesToNatLE (((blake2b persona a b).drop (8 * i)).take 8) : ℕ) :
              ZMod q)
      ∧ (∑ i in Finset.range 8, 2 ^ (64 * i)
          * bytesToNatLE (((blake2b persona a b).drop (8 * i)).take 8))
          = bytesToNatLE (blake2b persona a b) := by
  constructor
  · simp only [hash_to_scalar]
    rw [foldl_msb_bits q
      (fun n => ((List.range 8).map
        (fun i => bytesToNatLE (((blake2b persona a b).drop (8 * i)).take 8))).getD
          (n / 64) 0 / 2 ^ (n % 64) % 2) 512 0]
    rw [zero_mul, zero_add]
    set ws := (List.range 8).map
      (fun i => bytesToNatLE (((blake2b persona a b).drop (8 * i)).take 8)) with hws
    have h8 : ws.length = 8 := by simp [hws]
    have hb : ∀ w ∈ ws, w < 2 ^ 64 := by
      intro w hw
      rw [hws] at hw
      obtain ⟨i, _, rfl⟩ := List.mem_map.mp hw
      have hle : (((blake2b persona a b).drop (8 * i)).take 8).length ≤ 8 := by
        simp [List.length_take]
      calc bytesToNatLE (((blake2b persona a b).drop (8 * i)).take 8)
          < 256 ^ (((blake2b persona a b).drop (8 * i)).take 8).length := by
            refine bytesToNatLE_lt _ ?_
            intro x hx
            exact hbytes x (List.drop_subset _ _ (List.take_subset _ _ hx))
        _ ≤ 256 ^ 8 := Nat.pow_le_pow_right (by omega) hle
        _ = 2 ^ 64 := by norm_num
    have h512 : (512 : ℕ) = 64 * ws.length := by rw [h8]
    rw [show (∑ n in Finset.range 512,
        (if ws.getD (n / 64) 0 / 2 ^ (n % 64) % 2 = 1 then 1 else 0) * 2 ^ n)
      = ∑ n in Finset.range (64 * ws.length),
        (if ws.getD (n / 64) 0 / 2 ^ (n % 64) % 2 = 1 then 1 else 0) * 2 ^ n from by
          rw [← h512]]
    rw [word_bits_val ws hb]
    have hgetD : ∀ i ∈ Finset.range ws.length,
        2 ^ (64 * i) * ws.getD i 0
          = 2 ^ (64 * i)
            * bytesToNatLE (((blake2b persona a b).drop (8 * i)).take 8) := by
      intro i hi
      rw [h8] at hi
      have hi8 : i < 8 := Finset.mem_range.mp hi
      rw [hws]
      congr 1
      rw [List.getD_eq_getElem?_getD, List.getElem?_map, List.getElem?_range hi8]
      rfl
    rw [Finset.sum_congr rfl hgetD, h8]
  · exact blocks_val 8 (blake2b persona a b) (by omega)

/-- Witness for C7 at the concrete 64-byte digest of value 1. -/
theorem c7_hash_to_scalar_reduces_witness :
    (blake2bConst [] [] []).length = 64
      ∧ (∀ x ∈ blake2bConst [] [] [], x < 256)
      ∧ (hash_to_scalar 3 blake2bConst [] [] []
          = ((∑ i in Finset.range 8, 2 ^ (64 * i)
              * bytesToNatLE (((blake2bConst [] [] []).drop (8 * i)).take 8) : ℕ) :
                ZMod 3)
        ∧ (∑ i in Finset.range 8, 2 ^ (64 * i)
            * bytesToNatLE (((blake2bConst [] [] []).drop (8 * i)).take 8))
            = bytesToNatLE (blake2bConst [] [] [])) :=
  ⟨by decide, by decide,
    c7_hash_to_scalar_reduces 3 blake2bConst [] [] [] (by decide) (by decide)⟩

/-! ### Claim C8: the doubling formula -/

/-- On a curve with nonsquare `d` and square `-1`, `Y^2 - X^2` cannot
vanish on a projective curve point. -/
theorem double_G_ne {p : ℕ} [Fact (Nat.Prime p)] (d : ZMod p) (P : Pt p)
    (hz : P.z ≠ 0) (hc : on_curve d P) (hd : ¬IsSquare d)
    (h1 : IsSquare (-1 : ZMod p)) : P.y ^ 2 - P.x ^ 2 ≠ 0 := by
  intro h0
  have hcurve := hc
  unfold on_curve at hcurve
  by_cases hx : P.x = 0
  · have hy : P.y = 0 := by
      have hy2 : P.y ^ 2 = 0 := by rw [hx] at h0; simpa using h0
      exact pow_eq_zero_iff (two_ne_zero) |>.mp hy2
    have hz4 : P.z ^ 4 = 0 := by rw [hx, hy] at hcurve; simpa using hcurve.symm
    exact hz (pow_eq_zero_iff (by norm_num) |>.mp hz4)
  · have hy : P.y ≠ 0 := by
      intro hy0
      apply hx
      have hx2 : P.x ^ 2 = 0 := by rw [hy0] at h0; simpa using h0.symm
      exact pow_eq_zero_iff (two_ne_zero) |>.mp hx2
    have key : d * (P.x * P.y) ^ 2 = -(P.z ^ 2) ^ 2 := by
      linear_combination P.z ^ 2 * h0 - hcurve
    have hsq : IsSquare (-d) := by
      refine ⟨P.z ^ 2 / (P.x * P.y), ?_⟩
      field_simp
      linear_combination -key
    obtain ⟨i, hi⟩ := h1
    obtain ⟨s, hs⟩ := hsq
    refine hd ⟨i * s, ?_⟩
    have : d = -(s * s) := by linear_combination -hs
    rw [this]
    linear_combination (s * s) * hi

/-- On a curve with nonsquare `d`, `Y^2 - X^2 - 2*Z^2` cannot vanish on
a projective curve point. -/
theorem double_F_ne {p : ℕ} [Fact (Nat.Prime p)] (d : ZMod p) (P : Pt p)
    (hz : P.z ≠ 0) (hc : on_curve d P) (hd : ¬IsSquare d) :
    P.y ^ 2 - P.x ^ 2 - 2 * P.z ^ 2 ≠ 0 := by
  intro h0
  have hcurve := hc
  unfold on_curve at hcurve
  have key : d * (P.x * P.y) ^ 2 = (P.z ^ 2) ^ 2 := by
    linear_combination P.z ^ 2 * h0 - hcurve
  by_cases hx : P.x = 0
  · have hz4 : (P.z ^ 2) ^ 2 = 0 := by rw [hx] at key; simpa using key.symm
    exact hz (pow_eq_zero_iff (two_ne_zero) |>.mp
      (pow_eq_zero_iff (two_ne_zero) |>.mp hz4))
  · by_cases hy : P.y = 0
    · have hz4 : (P.z ^ 2) ^ 2 = 0 := by rw [hy] at key; simpa using key.symm
      exact hz (pow_eq_zero_iff (two_ne_zero) |>.mp
        (pow_eq_zero_iff (two_ne_zero) |>.mp hz4))
    · refine hd ⟨P.z ^ 2 / (P.x * P.y), ?_⟩
      field_simp
      linear_combination key

/-- Claim C8 (confirmed): `double` computes exactly the HWCD §3.3
sequence `A=X², B=Y², C=2Z², D=-A, E=(X+Y)²-A-B, G=D+B, F=G-C, H=D-B`
and returns `(E*F, G*H, E*H, F*G)` (first conjunct); the result satisfies
the extended-coordinate invariant `T*Z = X*Y` (second conjunct); the
formula handles the identity `(0,1,0,1)` (third conjunct, a
representative of the identity); and it is valid for every point of the
curve: for on-curve `P` with `Z ≠ 0` (given the curve parameters, `d`
nonsquare and `-1` square), the output has nonzero `Z` and its affine
coordinates are the twisted Edwards (`a = -1`) doubling of the affine
input (fourth conjunct). -/
theorem c8_double_hwcd {p : ℕ} [Fact (Nat.Prime p)] (d : ZMod p) (P : Pt p) :
    (∀ A B C D E G F H : ZMod p,
      A = P.x ^ 2 → B = P.y ^ 2 → C = 2 * P.z ^ 2 → D = -A →
      E = (P.x + P.y) ^ 2 - A - B → G = D + B → F = G - C → H = D - B →
      double P = ⟨E * F, G * H, E * H, F * G⟩)
    ∧ (double P).t * (double P).z = (double P).x * (double P).y
    ∧ double (zeroPt p) = ⟨0, -1, 0, -1⟩
    ∧ (P.z ≠ 0 → on_curve d P → ¬IsSquare d → IsSquare (-1 : ZMod p) →
        (double P).z ≠ 0
        ∧ (double P).x / (double P).z
            = 2 * (P.x / P.z) * (P.y / P.z)
              / ((P.y / P.z) ^ 2 - (P.x / P.z) ^ 2)
        ∧ (double P).y / (double P).z
            = ((P.x / P.z) ^ 2 + (P.y / P.z) ^ 2)
              / (2 - ((P.y / P.z) ^ 2 - (P.x / P.z) ^ 2))) := by
  refine ⟨?_, ?_, ?_, ?_⟩
  · intro A B C D E G F H hA hB hC hD hE hG hF hH
    subst hA hB hC hD hE hG hF hH
    simp only [double, Pt.mk.injEq]
    refine ⟨by ring, by ring, by ring, by ring⟩
  · simp only [double]
    ring
  · simp only [double, zeroPt, Pt.mk.injEq]
    refine ⟨by ring, by ring, by ring, by ring⟩
  · intro hz hc hd h1
    have hG := double_G_ne d P hz hc hd h1
    have hF := double_F_ne d P hz hc hd
    have hzd : (double P).z = (P.y ^ 2 - P.x ^ 2 - 2 * P.z ^ 2) * (P.y ^ 2 - P.x ^ 2) := by
      simp only [double]
      ring
    have hz3 : (double P).z ≠ 0 := by
      rw [hzd]
      exact mul_ne_zero hF hG
    have hden1 : (P.y / P.z) ^ 2 - (P.x / P.z) ^ 2 ≠ 0 := by
      have e1 : (P.y / P.z) ^ 2 - (P.x / P.z) ^ 2
          = (P.y ^ 2 - P.x ^ 2) / P.z ^ 2 := by
        field_simp
      rw [e1]
      exact div_ne_zero hG (pow_ne_zero 2 hz)
    have hden2 : 2 - ((P.y / P.z) ^ 2 - (P.x / P.z) ^ 2) ≠ 0 := by
      have e1 : 2 - ((P.y / P.z) ^ 2 - (P.x / P.z) ^ 2)
          = -(P.y ^ 2 - P.x ^ 2 - 2 * P.z ^ 2) / P.z ^ 2 := by
        field_simp
      rw [e1]
      exact div_ne_zero (neg_ne_zero.mpr hF) (pow_ne_zero 2 hz)
    have hD2 : 2 * P.z ^ 2 - P.y ^ 2 + P.x ^ 2 ≠ 0 := by
      intro h
      exact hF (by linear_combination -h)
    refine ⟨hz3, ?_, ?_⟩
    · have hreq : 2 * (P.x / P.z) * (P.y / P.z) / ((P.y / P.z) ^ 2 - (P.x / P.z) ^ 2)
          = 2 * P.x * P.y / (P.y ^ 2 - P.x ^ 2) := by
        rw [div_eq_div_iff hden1 hG]
        field_simp
        exact Or.inl (by ring)
      rw [hreq, div_eq_div_iff hz3 hG]
      simp only [double]
      ring
    · have hreq : ((P.x / P.z) ^ 2 + (P.y / P.z) ^ 2)
            / (2 - ((P.y / P.z) ^ 2 - (P.x / P.z) ^ 2))
          = (P.x ^ 2 + P.y ^ 2) / (2 * P.z ^ 2 - P.y ^ 2 + P.x ^ 2) := by
        rw [div_eq_div_iff hden2 hD2]
        field_simp
        exact Or.inl (by ring)
      rw [hreq, div_eq_div_iff hz3 hD2]
      simp only [double]
      ring

instance : Fact (Nat.Prime 17) := ⟨by norm_num⟩

/-- Witness for C8 on the concrete instance curve at the point `G17`. -/
theorem c8_double_hwcd_witness :
    G17.z ≠ 0 ∧ on_curve d17 G17 ∧ ¬IsSquare d17 ∧ IsSquare (-1 : ZMod 17)
      ∧ ((double G17).z ≠ 0
        ∧ (double G17).x / (double G17).z
            = 2 * (G17.x / G17.z) * (G17.y / G17.z)
              / ((G17.y / G17.z) ^ 2 - (G17.x / G17.z) ^ 2)
        ∧ (double G17).y / (double G17).z
            = ((G17.x / G17.z) ^ 2 + (G17.y / G17.z) ^ 2)
              / (2 - ((G17.y / G17.z) ^ 2 - (G17.x / G17.z) ^ 2))) := by
  refine ⟨by decide, by unfold on_curve; decide, by decide, by decide, ?_⟩
  exact (c8_double_hwcd d17 G17).2.2.2 (by decide) (by unfold on_curve; decide)
    (by decide) (by decide)

/-! ### Claims C9 and C10 -/

/-- Claim C9 (confirmed): `sign` draws its nonce from exactly the first
80 bytes of the randomness stream (second conjunct: two streams agreeing
on those 80 bytes produce the same signature), and produces
`rbar = encode(generator * r)` with `r = h_star(T, msg)`, and
`sbar = encode(h_star(rbar, msg) * sk + r)` in the scalar field (first
conjunct). -/
theorem c9_sign_steps {p q : ℕ} (d : ZMod p)
    (blake2b : List ℕ → List ℕ → List ℕ → List ℕ)
    (generator : Pt p) (sk : ZMod q) (msg : List ℕ) (rng rng2 : ℕ → ℕ)
    (hagree : ∀ i, i < 80 → rng i = rng2 i) :
    (sign d blake2b generator sk msg rng
      = { rbar := write_point (mul_sc d generator
            (h_star q blake2b ((List.range 80).map rng) msg)),
          sbar := write_scalar
            (h_star q blake2b
              (write_point (mul_sc d generator
                (h_star q blake2b ((List.range 80).map rng) msg))) msg * sk
              + h_star q blake2b ((List.range 80).map rng) msg) })
    ∧ sign d blake2b generator sk msg rng
        = sign d blake2b generator sk msg rng2 := by
  constructor
  · rfl
  · have ht : (List.range 80).map rng = (List.range 80).map rng2 := by
      refine List.map_congr_left ?_
      intro i hi
      exact hagree i (List.mem_range.mp hi)
    simp only [sign, ht]

/-- Witness for C9: two streams agreeing on the first 80 bytes. -/
theorem c9_sign_steps_witness :
    (∀ i, i < 80 → (fun _ : ℕ => (0 : ℕ)) i
        = (fun j : ℕ => if j < 80 then (0 : ℕ) else 1) i)
      ∧ ((sign d17 blake2bConst G17 (1 : ZMod 3) [] (fun _ => 0)
          = { rbar := write_point (mul_sc d17 G17
                (h_star 3 blake2bConst
                  ((List.range 80).map (fun _ => 0)) [])),
              sbar := write_scalar
                (h_star 3 blake2bConst
                  (write_point (mul_sc d17 G17
                    (h_star 3 blake2bConst
                      ((List.range 80).map (fun _ => 0)) []))) [] * (1 : ZMod 3)
                  + h_star 3 blake2bConst
                      ((List.range 80).map (fun _ => 0)) []) })
        ∧ sign d17 blake2bConst G17 (1 : ZMod 3) [] (fun _ => 0)
            = sign d17 blake2bConst G17 (1 : ZMod 3) []
                (fun j => if j < 80 then 0 else 1)) :=
  ⟨fun i hi => by simp [hi],
    c9_sign_steps d17 blake2bConst G17 (1 : ZMod 3) [] (fun _ => 0)
      (fun j => if j < 80 then 0 else 1) (fun i hi => by simp [hi])⟩

/-- Claim C10 (confirmed): `group_hash` panics (`none`) whenever the
personalization does not have length 8 (first conjunct), and for an
8-byte personalization (and the guaranteed 32-byte digest) it never
panics: it returns a normal `some` result (second conjunct). -/
theorem c10_group_hash_personalization {p : ℕ}
    (blake2s : List ℕ → List ℕ → List ℕ) (ghFirst : List ℕ) (d : ZMod p)
    (tag personalization : List ℕ) :
    (personalization.length ≠ 8 →
      group_hash blake2s ghFirst d tag personalization = none)
    ∧ (personalization.length = 8 →
        (blake2s personalization (ghFirst ++ tag)).length = 32 →
        ∃ o, group_hash blake2s ghFirst d tag personalization = some o) := by
  constructor
  · intro h
    unfold group_hash
    rw [if_pos h]
  · intro h8 h32
    exact group_hash_total blake2s ghFirst d tag personalization h8 h32

/-- Witness for C10: a 1-byte personalization panics, the 8-byte one
returns normally. -/
theorem c10_group_hash_personalization_witness :
    group_hash blake2sGood [] d17 [] [0] = none
      ∧ ∃ o, group_hash blake2sGood [] d17 [] pers8 = some o :=
  ⟨(c10_group_hash_personalization blake2sGood [] d17 [] [0]).1 (by decide),
    (c10_group_hash_personalization blake2sGood [] d17 [] pers8).2
      (by decide) (by decide)⟩

end ZexeRedJubjub
